import Mathlib

/-
Verification of the stippling engine of the selectionBiasChallenge repository.

The Python sources are shallowly embedded over exact rationals:

* grids (`np.ndarray` of shape `(h, w)`) become total functions
  `Nat → Nat → ℚ` together with the explicit dimensions `h w : Nat`;
  only indices `i < h`, `j < w` are ever consulted;
* the energy field, which the placer sets to `np.inf` at selected cells,
  is a function into `WithTop ℚ` (`⊤` plays the role of `+inf`;
  `⊤ + q = ⊤` matches IEEE `inf + finite`);
* `np.exp` is abstracted by a parameter `aexp : ℚ → ℚ`; theorems that
  need properties of the exponential assume only its positivity
  (`∀ x, 0 < aexp x`), which `Real.exp` satisfies;
* the Gaussian noise drawn each iteration (`np.random.normal`) is
  modelled by an arbitrary unit draw `ν : Nat → Nat → Nat → ℚ`
  (iteration, row, column) scaled by the standard deviation the code
  computes; theorems quantify over every draw, hence over every
  realisation of the random source;
* fallible numpy operations (`np.argmin` of an empty slice, negative
  `scale` in `np.random.normal`) are modelled with `Option`: `none`
  is a raised exception;
* guarded divisions are routed through `gridSafeDiv`, which returns
  `none` on a zero divisor, so "no division by zero is performed"
  is expressed as the computation returning `some`.
-/

namespace SBC

/-! ### Rational helpers -/

/-- `np.clip(x, 0.0, 1.0)`: clamp below at 0, then above at 1. -/
def clip01 (x : ℚ) : ℚ := min (max x 0) 1

/-- Python `int(q)`: truncation toward zero. -/
def truncQ (q : ℚ) : ℤ := if 0 ≤ q then ⌊q⌋ else ⌈q⌉

theorem clip01_nonneg (x : ℚ) : 0 ≤ clip01 x := by
  unfold clip01
  exact le_min (le_max_right x 0) zero_le_one

theorem clip01_le_one (x : ℚ) : clip01 x ≤ 1 := min_le_right _ _

/-! ### First-minimum search (the semantics of `np.argmin`)

`np.argmin` flattens its argument in row-major order and returns the
index of the first occurrence of the minimum; on an empty array it
raises, which is modelled by `none`. -/

/-- The minimum of a list, `none` on the empty list. -/
def minOpt {α : Type} [LinearOrder α] : List α → Option α
  | [] => none
  | a :: as =>
    some (match minOpt as with
          | none => a
          | some m => min a m)

/-- Index of the first occurrence of the minimum, `none` on `[]`. -/
def firstMinIdx {α : Type} [LinearOrder α] : List α → Option Nat
  | [] => none
  | a :: as =>
    match minOpt as with
    | none => some 0
    | some m => if a ≤ m then some 0 else (firstMinIdx as).map (· + 1)

theorem minOpt_eq_none {α : Type} [LinearOrder α] {l : List α}
    (h : minOpt l = none) : l = [] := by
  cases l with
  | nil => rfl
  | cons a as => simp [minOpt] at h

theorem minOpt_isSome {α : Type} [LinearOrder α] {l : List α}
    (h : l ≠ []) : ∃ m, minOpt l = some m := by
  cases l with
  | nil => exact absurd rfl h
  | cons a as => exact ⟨_, rfl⟩

theorem minOpt_le {α : Type} [LinearOrder α] :
    ∀ {l : List α} {m : α}, minOpt l = some m → ∀ x ∈ l, m ≤ x := by
  intro l
  induction l with
  | nil => intro m h; simp [minOpt] at h
  | cons a as ih =>
    intro m h x hx
    cases has : minOpt as with
    | none =>
      have hnil := minOpt_eq_none has
      subst hnil
      simp only [minOpt, Option.some.injEq] at h
      subst h
      rcases List.mem_cons.mp hx with hxa | hxas
      · exact le_of_eq hxa.symm
      · simp at hxas
    | some m' =>
      simp only [minOpt, has, Option.some.injEq] at h
      subst h
      rcases List.mem_cons.mp hx with hxa | hxas
      · subst hxa; exact min_le_left _ _
      · exact le_trans (min_le_right _ _) (ih has x hxas)

theorem minOpt_mem {α : Type} [LinearOrder α] :
    ∀ {l : List α} {m : α}, minOpt l = some m → m ∈ l := by
  intro l
  induction l with
  | nil => intro m h; simp [minOpt] at h
  | cons a as ih =>
    intro m h
    cases has : minOpt as with
    | none =>
      have hnil := minOpt_eq_none has
      subst hnil
      simp only [minOpt, Option.some.injEq] at h
      subst h
      exact List.mem_cons_self _ _
    | some m' =>
      simp only [minOpt, has, Option.some.injEq] at h
      rcases min_cases a m' with ⟨hm, _⟩ | ⟨hm, _⟩
      · rw [hm] at h; subst h; exact List.mem_cons_self _ _
      · rw [hm] at h; subst h
        exact List.mem_cons.mpr (Or.inr (ih has))

theorem firstMinIdx_isSome {α : Type} [LinearOrder α] :
    ∀ {l : List α}, l ≠ [] → ∃ i, firstMinIdx l = some i := by
  intro l
  induction l with
  | nil => intro h; exact absurd rfl h
  | cons a as ih =>
    intro _
    cases has : minOpt as with
    | none => exact ⟨0, by simp [firstMinIdx, has]⟩
    | some m =>
      by_cases hle : a ≤ m
      · exact ⟨0, by simp [firstMinIdx, has, hle]⟩
      · obtain ⟨i, hi⟩ :=
          ih (by intro hnil; rw [hnil] at has; simp [minOpt] at has)
        exact ⟨i + 1, by simp [firstMinIdx, has, hle, hi]⟩

theorem firstMinIdx_lt {α : Type} [LinearOrder α] :
    ∀ {l : List α} {i : Nat}, firstMinIdx l = some i → i < l.length := by
  intro l
  induction l with
  | nil => intro i h; simp [firstMinIdx] at h
  | cons a as ih =>
    intro i h
    cases has : minOpt as with
    | none =>
      simp only [firstMinIdx, has, Option.some.injEq] at h
      subst h; simp
    | some m =>
      simp only [firstMinIdx, has] at h
      by_cases hle : a ≤ m
      · rw [if_pos hle, Option.some.injEq] at h; subst h; simp
      · rw [if_neg hle] at h
        cases hfi : firstMinIdx as with
        | none => rw [hfi] at h; simp at h
        | some i' =>
          rw [hfi] at h; simp only [Option.map_some', Option.some.injEq] at h
          have := ih hfi
          simp only [List.length_cons]
          omega

theorem firstMinIdx_min {α : Type} [LinearOrder α] :
    ∀ {l : List α} {i : Nat}, firstMinIdx l = some i →
      ∀ (hi : i < l.length) (j : Nat) (hj : j < l.length),
        l.get ⟨i, hi⟩ ≤ l.get ⟨j, hj⟩ := by
  intro l
  induction l with
  | nil => intro i h; simp [firstMinIdx] at h
  | cons a as ih =>
    intro i h hi j hj
    cases has : minOpt as with
    | none =>
      have hnil := minOpt_eq_none has
      subst hnil
      simp only [firstMinIdx, minOpt, Option.some.injEq] at h
      subst h
      have hj0 : j = 0 := by
        simp only [List.length_cons, List.length_nil] at hj; omega
      subst hj0
      exact le_refl _
    | some m =>
      simp only [firstMinIdx, has] at h
      by_cases hle : a ≤ m
      · rw [if_pos hle, Option.some.injEq] at h
        subst h
        cases j with
        | zero => exact le_refl _
        | succ j' =>
          have hj' : j' < as.length := by
            simp only [List.length_cons] at hj; omega
          show a ≤ as.get ⟨j', hj'⟩
          exact le_trans hle (minOpt_le has _ (as.get_mem _ _))
      · rw [if_neg hle] at h
        cases hfi : firstMinIdx as with
        | none => rw [hfi] at h; simp at h
        | some i' =>
          rw [hfi] at h; simp only [Option.map_some', Option.some.injEq] at h
          subst h
          have hi' : i' < as.length := firstMinIdx_lt hfi
          cases j with
          | zero =>
            show as.get ⟨i', hi'⟩ ≤ a
            have h1 : as.get ⟨i', hi'⟩ ≤ m := by
              obtain ⟨jm, hjeq⟩ := List.mem_iff_get.mp (minOpt_mem has)
              have h2 := ih hfi hi' jm.val jm.isLt
              rwa [Fin.eta, hjeq] at h2
            exact le_trans h1 (le_of_not_le hle)
          | succ j' =>
            have hj' : j' < as.length := by
              simp only [List.length_cons] at hj; omega
            exact ih hfi hi' j' hj'

/-! ### Lists of grid values (row-major flattening) and aggregates -/

/-- Row-major flattening of an `h × w` grid of rationals. -/
def gridList (h w : Nat) (f : Nat → Nat → ℚ) : List ℚ :=
  (List.range (h * w)).map (fun k => f (k / w) (k % w))

/-- Row-major flattening of an `h × w` energy field. -/
def gridListW (h w : Nat) (f : Nat → Nat → WithTop ℚ) : List (WithTop ℚ) :=
  (List.range (h * w)).map (fun k => f (k / w) (k % w))

/-- The maximum of a nonempty list (`np.max`); 0 as a junk value on `[]`. -/
def listMax : List ℚ → ℚ
  | [] => 0
  | a :: as => as.foldl max a

/-- The minimum of a nonempty list (`np.min`); 0 as a junk value on `[]`. -/
def listMin : List ℚ → ℚ
  | [] => 0
  | a :: as => as.foldl min a

/-- `arr.max()` over the grid. -/
def gridMax (h w : Nat) (f : Nat → Nat → ℚ) : ℚ := listMax (gridList h w f)

/-- `arr.min()` over the grid. -/
def gridMin (h w : Nat) (f : Nat → Nat → ℚ) : ℚ := listMin (gridList h w f)

/-- `arr.sum()` over the grid. -/
def gridSum (h w : Nat) (f : Nat → Nat → ℚ) : ℚ := (gridList h w f).sum

theorem foldl_max_le_of_mem :
    ∀ (as : List ℚ) (a : ℚ), (a ≤ as.foldl max a) ∧ ∀ x ∈ as, x ≤ as.foldl max a := by
  intro as
  induction as with
  | nil => intro a; exact ⟨le_refl a, by simp⟩
  | cons b bs ih =>
    intro a
    refine ⟨le_trans (le_max_left a b) (ih (max a b)).1, ?_⟩
    intro x hx
    rcases List.mem_cons.mp hx with hxb | hxbs
    · subst hxb
      exact le_trans (le_max_right a x) (ih (max a x)).1
    · exact (ih (max a b)).2 x hxbs

theorem foldl_max_mem :
    ∀ (as : List ℚ) (a : ℚ), as.foldl max a = a ∨ as.foldl max a ∈ as := by
  intro as
  induction as with
  | nil => intro a; exact Or.inl rfl
  | cons b bs ih =>
    intro a
    rcases ih (max a b) with h | h
    · rcases max_cases a b with ⟨hm, _⟩ | ⟨hm, _⟩
      · exact Or.inl (by simpa [hm] using h)
      · exact Or.inr (by simp only [List.foldl]; rw [h, hm]; exact List.mem_cons_self _ _)
    · exact Or.inr (List.mem_cons.mpr (Or.inr h))

theorem le_listMax {l : List ℚ} {x : ℚ} (hx : x ∈ l) : x ≤ listMax l := by
  cases l with
  | nil => simp at hx
  | cons a as =>
    rcases List.mem_cons.mp hx with h | h
    · subst h; exact (foldl_max_le_of_mem as x).1
    · exact (foldl_max_le_of_mem as a).2 x h

theorem listMax_mem {l : List ℚ} (h : l ≠ []) : listMax l ∈ l := by
  cases l with
  | nil => exact absurd rfl h
  | cons a as =>
    rcases foldl_max_mem as a with h' | h'
    · exact List.mem_cons.mpr (Or.inl (by simpa [listMax] using h'))
    · exact List.mem_cons.mpr (Or.inr (by simpa [listMax] using h'))

theorem foldl_min_le_of_mem :
    ∀ (as : List ℚ) (a : ℚ), (as.foldl min a ≤ a) ∧ ∀ x ∈ as, as.foldl min a ≤ x := by
  intro as
  induction as with
  | nil => intro a; exact ⟨le_refl a, by simp⟩
  | cons b bs ih =>
    intro a
    refine ⟨le_trans (ih (min a b)).1 (min_le_left a b), ?_⟩
    intro x hx
    rcases List.mem_cons.mp hx with hxb | hxbs
    · subst hxb
      exact le_trans (ih (min a x)).1 (min_le_right a x)
    · exact (ih (min a b)).2 x hxbs

theorem foldl_min_mem :
    ∀ (as : List ℚ) (a : ℚ), as.foldl min a = a ∨ as.foldl min a ∈ as := by
  intro as
  induction as with
  | nil => intro a; exact Or.inl rfl
  | cons b bs ih =>
    intro a
    rcases ih (min a b) with h | h
    · rcases min_cases a b with ⟨hm, _⟩ | ⟨hm, _⟩
      · exact Or.inl (by simpa [hm] using h)
      · exact Or.inr (by simp only [List.foldl]; rw [h, hm]; exact List.mem_cons_self _ _)
    · exact Or.inr (List.mem_cons.mpr (Or.inr h))

theorem listMin_le {l : List ℚ} {x : ℚ} (hx : x ∈ l) : listMin l ≤ x := by
  cases l with
  | nil => simp at hx
  | cons a as =>
    rcases List.mem_cons.mp hx with h | h
    · subst h; exact (foldl_min_le_of_mem as x).1
    · exact (foldl_min_le_of_mem as a).2 x h

theorem listMin_mem {l : List ℚ} (h : l ≠ []) : listMin l ∈ l := by
  cases l with
  | nil => exact absurd rfl h
  | cons a as =>
    rcases foldl_min_mem as a with h' | h'
    · exact List.mem_cons.mpr (Or.inl (by simpa [listMin] using h'))
    · exact List.mem_cons.mpr (Or.inr (by simpa [listMin] using h'))

/-! ### Row-major index arithmetic -/

theorem div_lt_of_lt_mul {k h w : Nat} (hk : k < h * w) : k / w < h :=
  Nat.div_lt_of_lt_mul (by rw [Nat.mul_comm]; exact hk)

theorem enc_div {p1 p2 w : Nat} (hp2 : p2 < w) : (p1 * w + p2) / w = p1 := by
  rw [Nat.add_comm, Nat.add_mul_div_right _ _ (by omega : 0 < w),
    Nat.div_eq_of_lt hp2, Nat.zero_add]

theorem enc_mod {p1 p2 w : Nat} (hp2 : p2 < w) : (p1 * w + p2) % w = p2 := by
  rw [Nat.add_comm, Nat.add_mul_mod_self_right, Nat.mod_eq_of_lt hp2]

theorem enc_lt {p1 p2 h w : Nat} (hp1 : p1 < h) (hp2 : p2 < w) :
    p1 * w + p2 < h * w := by
  calc p1 * w + p2 < p1 * w + w := by omega
  _ = (p1 + 1) * w := by ring
  _ ≤ h * w := Nat.mul_le_mul_right w hp1

theorem mem_gridList {h w : Nat} {f : Nat → Nat → ℚ} {i j : Nat}
    (hw : 0 < w) (hi : i < h) (hj : j < w) : f i j ∈ gridList h w f := by
  unfold gridList
  refine List.mem_map.mpr ⟨i * w + j, List.mem_range.mpr (enc_lt hi hj), ?_⟩
  rw [enc_div hj, enc_mod hj]

theorem gridMax_ge {h w : Nat} {f : Nat → Nat → ℚ} {i j : Nat}
    (hw : 0 < w) (hi : i < h) (hj : j < w) : f i j ≤ gridMax h w f :=
  le_listMax (mem_gridList hw hi hj)

theorem gridMin_le {h w : Nat} {f : Nat → Nat → ℚ} {i j : Nat}
    (hw : 0 < w) (hi : i < h) (hj : j < w) : gridMin h w f ≤ f i j :=
  listMin_le (mem_gridList hw hi hj)

theorem gridList_ne_nil {h w : Nat} {f : Nat → Nat → ℚ} (hhw : 0 < h * w) :
    gridList h w f ≠ [] := by
  unfold gridList
  simp only [ne_eq, List.map_eq_nil_iff, List.range_eq_nil]
  omega

/-! ### Source embedding: `toroidal_gaussian_kernel` (stippling_functions.py, lines 29-39)

```
y = np.arange(h); x = np.arange(w)
dy = np.minimum(y, h - y)[:, None]
dx = np.minimum(x, w - x)[None, :]
kern = np.exp(-(dx**2 + dy**2) / (2.0 * sigma**2))
s = kern.sum()
if s > 0:
    kern /= s
return kern
```
-/

def toroidal_gaussian_kernel (h w : Nat) (aexp : ℚ → ℚ) (sigma : ℚ) :
    Nat → Nat → ℚ :=
  let raw : Nat → Nat → ℚ := fun i j =>
    aexp (-(((min j (w - j) : Nat) : ℚ) ^ 2 + ((min i (h - i) : Nat) : ℚ) ^ 2)
          / (2 * sigma ^ 2))
  let s := gridSum h w raw
  if 0 < s then fun i j => raw i j / s else raw

/-! ### Source embedding: `create_masked_stipple` (step5_create_masked.py, lines 50-67)

The two grids carry explicit shapes; the function raises (`Except.error`)
on a shape mismatch, otherwise sets every cell whose mask value is
strictly below the threshold to `1.0` and keeps the stipple value
elsewhere.
-/

def create_masked_stipple (sshape : Nat × Nat) (stipple_img : Nat → Nat → ℚ)
    (mshape : Nat × Nat) (mask_img : Nat → Nat → ℚ) (threshold : ℚ) :
    Except String ((Nat × Nat) × (Nat → Nat → ℚ)) :=
  if sshape ≠ mshape then
    Except.error "stipple_img and mask_img must have the same shape"
  else
    Except.ok (sshape, fun i j => if mask_img i j < threshold then 1 else stipple_img i j)

theorem sum_map_div (l : List ℚ) (s : ℚ) :
    (l.map (fun x => x / s)).sum = l.sum / s := by
  induction l with
  | nil => simp
  | cons a as ih => simp [ih, add_div]

theorem gridSum_div (h w : Nat) (f : Nat → Nat → ℚ) (s : ℚ) :
    gridSum h w (fun i j => f i j / s) = gridSum h w f / s := by
  unfold gridSum gridList
  rw [← sum_map_div, List.map_map]
  rfl

/-- Toroidal negation fixes the wraparound distance `min a (n - a)`. -/
theorem tdist_toroidal_neg {n a : Nat} (ha : a < n) :
    min ((n - a) % n) (n - (n - a) % n) = min a (n - a) := by
  rcases Nat.eq_zero_or_pos a with h0 | hpos
  · subst h0
    simp [Nat.sub_zero, Nat.mod_self]
  · have hlt : n - a < n := Nat.sub_lt (by omega) hpos
    rw [Nat.mod_eq_of_lt hlt, Nat.sub_sub_self (le_of_lt ha), Nat.min_comm]

theorem gridSum_kernel_raw_pos {h w : Nat} {aexp : ℚ → ℚ} {sigma : ℚ}
    (hh : 1 ≤ h) (hw : 1 ≤ w) (hexp : ∀ x, 0 < aexp x) :
    0 < gridSum h w (fun i j =>
      aexp (-(((min j (w - j) : Nat) : ℚ) ^ 2 + ((min i (h - i) : Nat) : ℚ) ^ 2)
        / (2 * sigma ^ 2))) := by
  unfold gridSum
  apply List.sum_pos
  · intro x hx
    obtain ⟨k, _, hk⟩ := List.mem_map.mp hx
    exact hk ▸ hexp _
  · exact gridList_ne_nil (by positivity)

/-- C5. The kernel built by `toroidal_gaussian_kernel` has total mass 1 (the
normalising division is taken, because every Gaussian entry is positive),
and it is invariant under simultaneous toroidal negation of both indices. -/
theorem c5_kernel_correct (h w : Nat) (aexp : ℚ → ℚ) (sigma : ℚ)
    (hh : 1 ≤ h) (hw : 1 ≤ w) (hsigma : 0 < sigma) (hexp : ∀ x, 0 < aexp x) :
    gridSum h w (toroidal_gaussian_kernel h w aexp sigma) = 1 ∧
    ∀ i j, i < h → j < w →
      toroidal_gaussian_kernel h w aexp sigma i j =
      toroidal_gaussian_kernel h w aexp sigma ((h - i) % h) ((w - j) % w) := by
  have hs := @gridSum_kernel_raw_pos h w aexp sigma hh hw hexp
  constructor
  · simp only [toroidal_gaussian_kernel, if_pos hs]
    rw [gridSum_div]
    exact div_self (ne_of_gt hs)
  · intro i j hi hj
    have hraw : ∀ a b : Nat,
        aexp (-(((min b (w - b) : Nat) : ℚ) ^ 2 + ((min a (h - a) : Nat) : ℚ) ^ 2)
          / (2 * sigma ^ 2)) > 0 := fun a b => hexp _
    simp only [toroidal_gaussian_kernel, if_pos hs]
    rw [tdist_toroidal_neg hi, tdist_toroidal_neg hj]

/-- Witness for C5 at a concrete instance. -/
theorem c5_kernel_witness :
    gridSum 1 1 (toroidal_gaussian_kernel 1 1 (fun _x => 1) 1) = 1 :=
  (c5_kernel_correct 1 1 (fun _x => 1) 1 (by decide) (by decide) (by norm_num)
    (fun _x => one_pos)).1

/-- C9. `create_masked_stipple` on same-shape grids succeeds and returns the
grid that is `1.0` wherever the mask is strictly below the threshold and the
original stipple value elsewhere; in particular, masking a 10×10 all-zero
grid with a mask that is `0.0` on the left half (columns 0–4) and `1.0` on
the right half at threshold `0.5` yields `1.0` on the left half and `0.0`
on the right half. -/
theorem c9_mask_correct :
    (∀ (shp : Nat × Nat) (s m : Nat → Nat → ℚ) (t : ℚ),
      create_masked_stipple shp s shp m t =
        Except.ok (shp, fun i j => if m i j < t then 1 else s i j)) ∧
    create_masked_stipple (10, 10) (fun _ _ => 0) (10, 10)
        (fun _ j => if j < 5 then 0 else 1) (1 / 2) =
      Except.ok ((10, 10), fun _ j => if j < 5 then 1 else 0) := by
  constructor
  · intro shp s m t
    simp [create_masked_stipple]
  · simp only [create_masked_stipple, ne_eq, not_true_eq_false, if_false,
      Except.ok.injEq, Prod.mk.injEq, true_and]
    funext i j
    by_cases hj : j < 5
    · simp [hj]
    · norm_num [hj]

/-! ### Source embedding: `compute_importance` (importance_map.py, lines 44-81)

Every division the Python code performs is routed through `gridSafeDiv`,
which fails (`none`) on a zero divisor; the code's own guards
(`if mask.max() > 0`, `if M > m`) are kept, so "the code performs no
division by zero" is the statement that the result is `some _`.
-/

/-- A grid divided by a scalar, failing on a zero divisor. -/
def gridSafeDiv (f : Nat → Nat → ℚ) (d : ℚ) : Option (Nat → Nat → ℚ) :=
  if d = 0 then none else some (fun i j => f i j / d)

/-- `if mask.max() > 0: mask = mask / mask.max()`. -/
def normalizeByMax (h w : Nat) (f : Nat → Nat → ℚ) : Option (Nat → Nat → ℚ) :=
  if 0 < gridMax h w f then gridSafeDiv f (gridMax h w f) else some f

/-- `np.where(I < tl, np.exp(-((I - 0)**2) / (2 * es**2)), 0.0)`. -/
def darkRaw (aexp : ℚ → ℚ) (es tl : ℚ) (I : Nat → Nat → ℚ) : Nat → Nat → ℚ :=
  fun i j => if I i j < tl then aexp (-((I i j - 0) ^ 2) / (2 * es ^ 2)) else 0

/-- `np.where(I > th, np.exp(-((I - 1)**2) / (2 * es**2)), 0.0)`. -/
def lightRaw (aexp : ℚ → ℚ) (es th : ℚ) (I : Nat → Nat → ℚ) : Nat → Nat → ℚ :=
  fun i j => if th < I i j then aexp (-((I i j - 1) ^ 2) / (2 * es ^ 2)) else 0

/-- `np.exp(-((I - 0.65)**2) / (2 * ms**2))`. -/
def midRaw (aexp : ℚ → ℚ) (ms : ℚ) (I : Nat → Nat → ℚ) : Nat → Nat → ℚ :=
  fun i j => aexp (-((I i j - 13 / 20) ^ 2) / (2 * ms ^ 2))

/-- `if M > m: importance = (importance - m) / (M - m)` (min–max normalise). -/
def minmaxNorm (h w : Nat) (f : Nat → Nat → ℚ) : Option (Nat → Nat → ℚ) :=
  if gridMin h w f < gridMax h w f then
    gridSafeDiv (fun i j => f i j - gridMin h w f) (gridMax h w f - gridMin h w f)
  else some f

/-- The importance field before the final min–max normalisation
(importance_map.py, lines 44-75). -/
def importancePre (h w : Nat) (aexp : ℚ → ℚ) (gray_img : Nat → Nat → ℚ)
    (extreme_downweight extreme_threshold_low extreme_threshold_high
     extreme_sigma mid_tone_boost mid_tone_sigma : ℚ) :
    Option (Nat → Nat → ℚ) :=
  let I := fun i j => clip01 (gray_img i j)
  (normalizeByMax h w (darkRaw aexp extreme_sigma extreme_threshold_low I)).bind
    fun dark_mask =>
  (normalizeByMax h w (lightRaw aexp extreme_sigma extreme_threshold_high I)).bind
    fun light_mask =>
  (normalizeByMax h w (midRaw aexp mid_tone_sigma I)).bind
    fun mid_tone_gaussian =>
  some (fun i j =>
    (1 - I i j) * (1 - extreme_downweight * max (dark_mask i j) (light_mask i j))
      * (1 + mid_tone_boost * mid_tone_gaussian i j))

/-- Full `compute_importance`: the pre-normalisation field followed by the
guarded min–max normalisation. -/
def compute_importance (h w : Nat) (aexp : ℚ → ℚ) (gray_img : Nat → Nat → ℚ)
    (extreme_downweight extreme_threshold_low extreme_threshold_high
     extreme_sigma mid_tone_boost mid_tone_sigma : ℚ) :
    Option (Nat → Nat → ℚ) :=
  (importancePre h w aexp gray_img extreme_downweight extreme_threshold_low
    extreme_threshold_high extreme_sigma mid_tone_boost mid_tone_sigma).bind
    (minmaxNorm h w)

/-- `f` is constant with value `c` on the `h × w` index domain. -/
def constOn (h w : Nat) (f : Nat → Nat → ℚ) (c : ℚ) : Prop :=
  ∀ i j, i < h → j < w → f i j = c

theorem gridList_mem_elim {h w : Nat} {f : Nat → Nat → ℚ} {x : ℚ} (hw : 0 < w)
    (hx : x ∈ gridList h w f) : ∃ i j, i < h ∧ j < w ∧ x = f i j := by
  obtain ⟨k, hk, hkx⟩ := List.mem_map.mp hx
  exact ⟨k / w, k % w, div_lt_of_lt_mul (List.mem_range.mp hk),
    Nat.mod_lt _ hw, hkx.symm⟩

theorem gridMax_constOn {h w : Nat} {f : Nat → Nat → ℚ} {c : ℚ}
    (hh : 0 < h) (hw : 0 < w) (hc : constOn h w f c) : gridMax h w f = c := by
  obtain ⟨i, j, hi, hj, heq⟩ :=
    gridList_mem_elim hw (listMax_mem (gridList_ne_nil (Nat.mul_pos hh hw)))
  show listMax (gridList h w f) = c
  rw [heq]
  exact hc i j hi hj

theorem gridMin_constOn {h w : Nat} {f : Nat → Nat → ℚ} {c : ℚ}
    (hh : 0 < h) (hw : 0 < w) (hc : constOn h w f c) : gridMin h w f = c := by
  obtain ⟨i, j, hi, hj, heq⟩ :=
    gridList_mem_elim hw (listMin_mem (gridList_ne_nil (Nat.mul_pos hh hw)))
  show listMin (gridList h w f) = c
  rw [heq]
  exact hc i j hi hj

theorem normalizeByMax_isSome (h w : Nat) (f : Nat → Nat → ℚ) :
    ∃ g, normalizeByMax h w f = some g := by
  unfold normalizeByMax gridSafeDiv
  by_cases hpos : 0 < gridMax h w f
  · rw [if_pos hpos, if_neg (ne_of_gt hpos)]
    exact ⟨_, rfl⟩
  · rw [if_neg hpos]
    exact ⟨f, rfl⟩

theorem normalizeByMax_bounds {h w : Nat} {f : Nat → Nat → ℚ}
    (hw : 0 < w) (hf : ∀ i j, i < h → j < w → 0 ≤ f i j) :
    ∃ g, normalizeByMax h w f = some g ∧
      ∀ i j, i < h → j < w → 0 ≤ g i j ∧ g i j ≤ 1 := by
  unfold normalizeByMax gridSafeDiv
  by_cases hpos : 0 < gridMax h w f
  · rw [if_pos hpos, if_neg (ne_of_gt hpos)]
    refine ⟨_, rfl, ?_⟩
    intro i j hi hj
    refine ⟨div_nonneg (hf i j hi hj) (le_of_lt hpos), ?_⟩
    rw [div_le_one hpos]
    exact gridMax_ge hw hi hj
  · rw [if_neg hpos]
    refine ⟨f, rfl, ?_⟩
    intro i j hi hj
    have h2 : f i j ≤ gridMax h w f := gridMax_ge hw hi hj
    exact ⟨hf i j hi hj, by have := not_lt.mp hpos; linarith⟩

/-- The value a constant grid is mapped to by the max-normalisation step. -/
def normVal (x : ℚ) : ℚ := if 0 < x then 1 else x

theorem normalizeByMax_constOn {h w : Nat} {f : Nat → Nat → ℚ} {c : ℚ}
    (hh : 0 < h) (hw : 0 < w) (hc : constOn h w f c) :
    ∃ g, normalizeByMax h w f = some g ∧ constOn h w g (normVal c) := by
  have hmax : gridMax h w f = c := gridMax_constOn hh hw hc
  unfold normalizeByMax gridSafeDiv normVal
  by_cases hpos : 0 < c
  · rw [if_pos (hmax ▸ hpos), if_neg (hmax ▸ ne_of_gt hpos), if_pos hpos]
    refine ⟨_, rfl, ?_⟩
    intro i j hi hj
    show f i j / gridMax h w f = 1
    rw [hc i j hi hj, hmax]
    exact div_self (ne_of_gt hpos)
  · rw [if_neg (hmax ▸ hpos), if_neg hpos]
    exact ⟨f, rfl, hc⟩

theorem minmaxNorm_bounds {h w : Nat} {f : Nat → Nat → ℚ} {hi : ℚ}
    (hw : 0 < w) (hi1 : 1 ≤ hi)
    (hrange : ∀ i j, i < h → j < w → 0 ≤ f i j ∧ f i j ≤ hi) :
    ∃ g, minmaxNorm h w f = some g ∧
      ∀ i j, i < h → j < w → 0 ≤ g i j ∧ g i j ≤ hi := by
  unfold minmaxNorm gridSafeDiv
  by_cases hlt : gridMin h w f < gridMax h w f
  · rw [if_pos hlt, if_neg (sub_ne_zero.mpr (ne_of_gt hlt))]
    refine ⟨_, rfl, ?_⟩
    intro i j hi2 hj
    have hmle : gridMin h w f ≤ f i j := gridMin_le hw hi2 hj
    have hMge : f i j ≤ gridMax h w f := gridMax_ge hw hi2 hj
    have hd : 0 < gridMax h w f - gridMin h w f := sub_pos.mpr hlt
    constructor
    · show 0 ≤ (f i j - gridMin h w f) / (gridMax h w f - gridMin h w f)
      exact div_nonneg (by linarith) (le_of_lt hd)
    · show (f i j - gridMin h w f) / (gridMax h w f - gridMin h w f) ≤ hi
      have hle1 : (f i j - gridMin h w f) / (gridMax h w f - gridMin h w f) ≤ 1 := by
        rw [div_le_one hd]; linarith
      linarith
  · rw [if_neg hlt]
    exact ⟨f, rfl, hrange⟩

theorem minmaxNorm_constOn {h w : Nat} {f : Nat → Nat → ℚ} {c : ℚ}
    (hh : 0 < h) (hw : 0 < w) (hc : constOn h w f c) :
    minmaxNorm h w f = some f := by
  unfold minmaxNorm
  rw [if_neg (show ¬ gridMin h w f < gridMax h w f by
    rw [gridMin_constOn hh hw hc, gridMax_constOn hh hw hc]
    exact lt_irrefl c)]

theorem clip01_constOn {h w : Nat} {g : Nat → Nat → ℚ} {c : ℚ}
    (hc : constOn h w g c) :
    constOn h w (fun i j => clip01 (g i j)) (clip01 c) := by
  intro i j hi hj
  simp only []
  rw [hc i j hi hj]

/-- On a constant input grid, `compute_importance` succeeds and returns the
constant grid whose value is computed symbolically from the input value. -/
theorem compute_importance_const (h w : Nat) (aexp : ℚ → ℚ)
    (gray_img : Nat → Nat → ℚ) (ed tl th es mb ms c : ℚ)
    (hh : 0 < h) (hw : 0 < w) (hc : constOn h w gray_img c) :
    ∃ out, compute_importance h w aexp gray_img ed tl th es mb ms = some out ∧
      constOn h w out
        ((1 - clip01 c) *
          (1 - ed * max
            (normVal (if clip01 c < tl then
              aexp (-((clip01 c - 0) ^ 2) / (2 * es ^ 2)) else 0))
            (normVal (if th < clip01 c then
              aexp (-((clip01 c - 1) ^ 2) / (2 * es ^ 2)) else 0))) *
          (1 + mb * normVal (aexp (-((clip01 c - 13 / 20) ^ 2) / (2 * ms ^ 2))))) := by
  have hI : constOn h w (fun i j => clip01 (gray_img i j)) (clip01 c) :=
    clip01_constOn hc
  have hdl : constOn h w (darkRaw aexp es tl (fun i j => clip01 (gray_img i j)))
      (if clip01 c < tl then aexp (-((clip01 c - 0) ^ 2) / (2 * es ^ 2)) else 0) := by
    intro i j hi hj
    unfold darkRaw
    rw [hI i j hi hj]
  have hll : constOn h w (lightRaw aexp es th (fun i j => clip01 (gray_img i j)))
      (if th < clip01 c then aexp (-((clip01 c - 1) ^ 2) / (2 * es ^ 2)) else 0) := by
    intro i j hi hj
    unfold lightRaw
    rw [hI i j hi hj]
  have hml : constOn h w (midRaw aexp ms (fun i j => clip01 (gray_img i j)))
      (aexp (-((clip01 c - 13 / 20) ^ 2) / (2 * ms ^ 2))) := by
    intro i j hi hj
    unfold midRaw
    rw [hI i j hi hj]
  obtain ⟨dk, hdk, hdc⟩ := normalizeByMax_constOn hh hw hdl
  obtain ⟨lt_, hlt, hlc⟩ := normalizeByMax_constOn hh hw hll
  obtain ⟨md, hmd, hmc⟩ := normalizeByMax_constOn hh hw hml
  have hprec : constOn h w (fun i j =>
      (1 - clip01 (gray_img i j)) * (1 - ed * max (dk i j) (lt_ i j))
        * (1 + mb * md i j))
      ((1 - clip01 c) *
        (1 - ed * max
          (normVal (if clip01 c < tl then
            aexp (-((clip01 c - 0) ^ 2) / (2 * es ^ 2)) else 0))
          (normVal (if th < clip01 c then
            aexp (-((clip01 c - 1) ^ 2) / (2 * es ^ 2)) else 0))) *
        (1 + mb * normVal (aexp (-((clip01 c - 13 / 20) ^ 2) / (2 * ms ^ 2))))) := by
    intro i j hi hj
    simp only []
    rw [hc i j hi hj, hdc i j hi hj, hlc i j hi hj, hmc i j hi hj]
  have hpre : importancePre h w aexp gray_img ed tl th es mb ms =
      some (fun i j =>
        (1 - clip01 (gray_img i j)) * (1 - ed * max (dk i j) (lt_ i j))
          * (1 + mb * md i j)) := by
    simp only [importancePre]
    rw [hdk, Option.some_bind, hlt, Option.some_bind, hmd, Option.some_bind]
  refine ⟨fun i j =>
      (1 - clip01 (gray_img i j)) * (1 - ed * max (dk i j) (lt_ i j))
        * (1 + mb * md i j), ?_, hprec⟩
  simp only [compute_importance]
  rw [hpre, Option.some_bind]
  exact minmaxNorm_constOn hh hw hprec

/-- C6. On a constant input grid `compute_importance` performs no division
by zero (it returns a value rather than failing at a `gridSafeDiv`) and the
resulting importance grid is constant on the index domain. -/
theorem c6_constant_correct (h w : Nat) (aexp : ℚ → ℚ) (gray_img : Nat → Nat → ℚ)
    (ed tl th es mb ms c : ℚ) (hh : 1 ≤ h) (hw : 1 ≤ w)
    (hc : ∀ i j, i < h → j < w → gray_img i j = c) :
    ∃ out, compute_importance h w aexp gray_img ed tl th es mb ms = some out ∧
      ∀ i j i' j', i < h → j < w → i' < h → j' < w → out i j = out i' j' := by
  obtain ⟨out, hout, hconst⟩ :=
    compute_importance_const h w aexp gray_img ed tl th es mb ms c hh hw hc
  refine ⟨out, hout, ?_⟩
  intro i j i' j' hi hj hi' hj'
  rw [hconst i j hi hj, hconst i' j' hi' hj']

/-- Witness for C6 at a concrete constant grid. -/
theorem c6_constant_witness :
    ∃ out, compute_importance 1 1 (fun _x => 1) (fun _ _ => 0)
        (1 / 2) (2 / 5) (4 / 5) (1 / 10) (2 / 5) (1 / 5) = some out ∧
      ∀ i j i' j', i < 1 → j < 1 → i' < 1 → j' < 1 → out i j = out i' j' :=
  c6_constant_correct 1 1 (fun _x => 1) (fun _ _ => 0)
    (1 / 2) (2 / 5) (4 / 5) (1 / 10) (2 / 5) (1 / 5) 0
    (by decide) (by decide) (fun _i _j _ _ => rfl)

theorem minmaxNorm_isSome (h w : Nat) (f : Nat → Nat → ℚ) :
    ∃ g, minmaxNorm h w f = some g := by
  unfold minmaxNorm gridSafeDiv
  by_cases hlt : gridMin h w f < gridMax h w f
  · rw [if_pos hlt, if_neg (sub_ne_zero.mpr (ne_of_gt hlt))]
    exact ⟨_, rfl⟩
  · rw [if_neg hlt]
    exact ⟨f, rfl⟩

/-- `compute_importance` never reaches an unguarded division: it always
returns a grid. -/
theorem compute_importance_isSome (h w : Nat) (aexp : ℚ → ℚ)
    (gray_img : Nat → Nat → ℚ) (ed tl th es mb ms : ℚ) :
    ∃ out, compute_importance h w aexp gray_img ed tl th es mb ms = some out := by
  obtain ⟨dk, hdk⟩ := normalizeByMax_isSome h w
    (darkRaw aexp es tl (fun i j => clip01 (gray_img i j)))
  obtain ⟨lt_, hlt⟩ := normalizeByMax_isSome h w
    (lightRaw aexp es th (fun i j => clip01 (gray_img i j)))
  obtain ⟨md, hmd⟩ := normalizeByMax_isSome h w
    (midRaw aexp ms (fun i j => clip01 (gray_img i j)))
  obtain ⟨g, hg⟩ := minmaxNorm_isSome h w (fun i j =>
    (1 - clip01 (gray_img i j)) * (1 - ed * max (dk i j) (lt_ i j))
      * (1 + mb * md i j))
  refine ⟨g, ?_⟩
  simp only [compute_importance, importancePre]
  rw [hdk, Option.some_bind, hlt, Option.some_bind, hmd, Option.some_bind,
    Option.some_bind]
  exact hg

/-- C3 fails as stated: on the constant all-black 1×1 grid with
`extreme_downweight = 0` (inside the documented range `[0,1]`) and the
default `mid_tone_boost = 0.4`, the pre-normalisation field is constant, the
min–max normalisation is skipped, and the returned importance value is
`1.4 > 1`. -/
theorem c3_counterexample :
    (compute_importance 1 1 (fun _x => 1) (fun _ _ => 0) 0 (2 / 5) (4 / 5)
        (1 / 10) (2 / 5) (1 / 5)).map (fun f => f 0 0) = some (7 / 5) ∧
    ¬ ((7 : ℚ) / 5 ≤ 1) := by
  obtain ⟨out, hout, hconst⟩ :=
    compute_importance_const 1 1 (fun _x => 1) (fun _ _ => 0) 0 (2 / 5) (4 / 5)
      (1 / 10) (2 / 5) (1 / 5) 0 one_pos one_pos (fun _i _j _ _ => rfl)
  constructor
  · rw [hout]
    simp only [Option.map_some']
    rw [hconst 0 0 one_pos one_pos]
    norm_num [clip01, normVal]
  · norm_num

/-- C3 amended. For inputs in `[0,1]` and documented parameter ranges the
importance values always lie in `[0, 1 + mid_tone_boost]` (hence in `[0,2]`);
the tighter `[0,1]` of the original claim holds only when the
pre-normalisation field is non-constant, as the counterexample shows. -/
theorem c3_amended_correct (h w : Nat) (aexp : ℚ → ℚ) (gray_img : Nat → Nat → ℚ)
    (ed tl th es mb ms : ℚ) (out : Nat → Nat → ℚ)
    (hh : 1 ≤ h) (hw : 1 ≤ w)
    (hexp : ∀ x, 0 < aexp x)
    (hgray : ∀ i j, i < h → j < w → 0 ≤ gray_img i j ∧ gray_img i j ≤ 1)
    (hed0 : 0 ≤ ed) (hed1 : ed ≤ 1) (hmb0 : 0 ≤ mb)
    (hes : 0 < es) (hms : 0 < ms)
    (hout : compute_importance h w aexp gray_img ed tl th es mb ms = some out) :
    ∀ i j, i < h → j < w → 0 ≤ out i j ∧ out i j ≤ 1 + mb := by
  have hw0 : 0 < w := hw
  obtain ⟨dk, hdk, hdkb⟩ := normalizeByMax_bounds (h := h) hw0
    (f := darkRaw aexp es tl (fun i j => clip01 (gray_img i j)))
    (by
      intro i j hi hj
      unfold darkRaw
      split
      · exact le_of_lt (hexp _)
      · exact le_refl 0)
  obtain ⟨lt_, hlt, hltb⟩ := normalizeByMax_bounds (h := h) hw0
    (f := lightRaw aexp es th (fun i j => clip01 (gray_img i j)))
    (by
      intro i j hi hj
      unfold lightRaw
      split
      · exact le_of_lt (hexp _)
      · exact le_refl 0)
  obtain ⟨md, hmd, hmdb⟩ := normalizeByMax_bounds (h := h) hw0
    (f := midRaw aexp ms (fun i j => clip01 (gray_img i j)))
    (by
      intro i j hi hj
      unfold midRaw
      exact le_of_lt (hexp _))
  obtain ⟨g, hg, hgb⟩ := @minmaxNorm_bounds h w
    (fun i j =>
      (1 - clip01 (gray_img i j)) * (1 - ed * max (dk i j) (lt_ i j))
        * (1 + mb * md i j)) (1 + mb) hw0
    (by linarith)
    (by
      intro i j hi hj
      obtain ⟨hdk0, hdk1⟩ := hdkb i j hi hj
      obtain ⟨hlt0, hlt1⟩ := hltb i j hi hj
      obtain ⟨hmd0, hmd1⟩ := hmdb i j hi hj
      have hI0 : 0 ≤ clip01 (gray_img i j) := clip01_nonneg _
      have hI1 : clip01 (gray_img i j) ≤ 1 := clip01_le_one _
      have hinv0 : 0 ≤ 1 - clip01 (gray_img i j) := by linarith
      have hinv1 : 1 - clip01 (gray_img i j) ≤ 1 := by linarith
      have hm0 : 0 ≤ max (dk i j) (lt_ i j) := le_trans hdk0 (le_max_left _ _)
      have hm1 : max (dk i j) (lt_ i j) ≤ 1 := max_le hdk1 hlt1
      have he0 : 0 ≤ ed * max (dk i j) (lt_ i j) := mul_nonneg hed0 hm0
      have he1 : ed * max (dk i j) (lt_ i j) ≤ 1 := mul_le_one hed1 hm0 hm1
      have ht10 : 0 ≤ 1 - ed * max (dk i j) (lt_ i j) := by linarith
      have ht11 : 1 - ed * max (dk i j) (lt_ i j) ≤ 1 := by linarith
      have h10 : 0 ≤ (1 - clip01 (gray_img i j))
          * (1 - ed * max (dk i j) (lt_ i j)) := mul_nonneg hinv0 ht10
      have h11 : (1 - clip01 (gray_img i j))
          * (1 - ed * max (dk i j) (lt_ i j)) ≤ 1 := mul_le_one hinv1 ht10 ht11
      have ht20 : 0 ≤ 1 + mb * md i j := by
        have := mul_nonneg hmb0 hmd0
        linarith
      have ht21 : 1 + mb * md i j ≤ 1 + mb := by
        have := mul_le_of_le_one_right hmb0 hmd1
        linarith
      constructor
      · exact mul_nonneg h10 ht20
      · calc (1 - clip01 (gray_img i j)) * (1 - ed * max (dk i j) (lt_ i j))
              * (1 + mb * md i j)
            ≤ 1 * (1 + mb) := mul_le_mul h11 ht21 ht20 zero_le_one
        _ = 1 + mb := one_mul _)
  have hout2 : g = out := by
    simp only [compute_importance, importancePre] at hout
    rw [hdk, Option.some_bind, hlt, Option.some_bind, hmd, Option.some_bind,
      Option.some_bind, hg, Option.some.injEq] at hout
    exact hout
  subst hout2
  exact hgb

/-- Witness for the amended C3 at a concrete instance. -/
theorem c3_amended_witness :
    ∃ out, compute_importance 1 1 (fun _x => 1) (fun _ _ => 0)
        (1 / 2) (2 / 5) (4 / 5) (1 / 10) (2 / 5) (1 / 5) = some out ∧
      (0 ≤ out 0 0 ∧ out 0 0 ≤ 1 + 2 / 5) := by
  obtain ⟨out, hout⟩ := compute_importance_isSome 1 1 (fun _x => 1)
    (fun _ _ => 0) (1 / 2) (2 / 5) (4 / 5) (1 / 10) (2 / 5) (1 / 5)
  exact ⟨out, hout,
    c3_amended_correct 1 1 (fun _x => 1) (fun _ _ => 0)
      (1 / 2) (2 / 5) (4 / 5) (1 / 10) (2 / 5) (1 / 5) out
      (by decide) (by decide) (fun _x => one_pos)
      (fun _i _j _ _ => ⟨le_refl 0, by norm_num⟩)
      (by norm_num) (by norm_num) (by norm_num) (by norm_num) (by norm_num)
      hout 0 0 (by decide) (by decide)⟩

/-! ### Shape handling of the optional importance grid
(stippling_functions.py, lines 86-89)

```
if importance_img is None:
    importance = compute_importance(I)
else:
    importance = np.clip(importance_img, 0.0, 1.0)
```

To state shape claims, the optional precomputed importance grid carries its
own shape here. The code contains no comparison between that shape and the
input's `(h, w)`: the supplied grid is clipped and used as-is. -/

def acquire_importance (h w : Nat) (aexp : ℚ → ℚ) (I : Nat → Nat → ℚ)
    (importance_img : Option ((Nat × Nat) × (Nat → Nat → ℚ))) :
    Option ((Nat × Nat) × (Nat → Nat → ℚ)) :=
  match importance_img with
  | none =>
    (compute_importance h w aexp I (1 / 2) (2 / 5) (4 / 5) (1 / 10) (2 / 5)
      (1 / 5)).map (fun g => ((h, w), g))
  | some (shp, g) => some (shp, fun i j => clip01 (g i j))

/-- C4 fails as stated: supplying an importance grid of shape `(10, 1)`
against a `(10, 10)` input is not rejected — the importance-selection step
succeeds and keeps the mismatched shape, raising no descriptive error. -/
theorem c4_counterexample :
    (acquire_importance 10 10 (fun _x => 1) (fun _ _ => 0)
        (some ((10, 1), fun _ _ => 0))).map Prod.fst = some (10, 1) ∧
    ((10, 1) : Nat × Nat) ≠ (10, 10) := by
  constructor
  · rfl
  · decide

/-- C4 amended. `void_and_cluster` performs no shape validation on a
supplied importance grid: the importance-selection step always succeeds,
returning the supplied grid clipped to `[0,1]` with its own shape unchanged
(no reshape to the input's shape, no error). A mismatch only surfaces later
as an unrelated numpy failure. -/
theorem c4_amended_correct (h w : Nat) (aexp : ℚ → ℚ) (I : Nat → Nat → ℚ)
    (shp : Nat × Nat) (g : Nat → Nat → ℚ) :
    acquire_importance h w aexp I (some (shp, g)) =
      some (shp, fun i j => clip01 (g i j)) := rfl

/-! ### Source embedding: `void_and_cluster` (stippling_functions.py, lines 42-145)

State of the placer loop: the persistent energy field (with `⊤` at the
permanently excluded selected cells), the stipple buffer and the ordered
sample list. -/

structure VCState where
  energy : Nat → Nat → WithTop ℚ
  stipple : Nat → Nat → ℚ
  samples : List (Nat × Nat × ℚ)

/-- `(a - s) mod n` on toroidal indices (`np.roll` index arithmetic). -/
def rollIdx (n a s : Nat) : Nat := (a + n - s % n) % n

/-- Lines 119-123 and 137-143: add the kernel rolled to `(y, x)` into the
energy field, set the chosen cell to `+inf`, append the sample, blacken the
stipple cell. -/
def placePoint (h w : Nat) (K I : Nat → Nat → ℚ) (y x : Nat)
    (st : VCState) : VCState where
  energy := fun i j =>
    if i = y ∧ j = x then ⊤
    else st.energy i j + ((K (rollIdx h i y) (rollIdx w j x) : ℚ) : WithTop ℚ)
  stipple := fun i j => if i = y ∧ j = x then 0 else st.stipple i j
  samples := st.samples ++ [(y, x, I y x)]

/-- One iteration of the placer loop (lines 126-143), given the iteration's
noise grid: add the noise to a copy of the energy field, take the row-major
first minimum of the noisy copy, then place the point using the persistent
field. `none` only when the grid is empty (`np.argmin` of an empty array). -/
def vcStep (h w : Nat) (K I : Nat → Nat → ℚ) (nz : Nat → Nat → ℚ)
    (st : VCState) : Option VCState :=
  match firstMinIdx (gridListW h w
      (fun i j => st.energy i j + ((nz i j : ℚ) : WithTop ℚ))) with
  | none => none
  | some k => some (placePoint h w K I (k / w) (k % w) st)

/-- The `for i in range(1, num_points)` loop. Each iteration draws noise
with standard deviation `noise_scale_factor * content_bias * exploration`
(`np.random.normal` raises on a negative scale, modelled by `none`); the
draw itself is the scale times the arbitrary unit draw `ν i`. -/
def vcLoop (h w : Nat) (K I : Nat → Nat → ℚ) (nP : ℤ) (nsf cb : ℚ)
    (ν : Nat → Nat → Nat → ℚ) : Nat → Nat → VCState → Option VCState
  | 0, _, st => some st
  | n + 1, i, st =>
    let exploration : ℚ := 1 - ((i : ℚ) / (nP : ℚ)) * (1 / 2)
    let std := nsf * cb * exploration
    if std < 0 then none
    else
      match vcStep h w K I (fun r c => std * ν i r c) st with
      | none => none
      | some st' => vcLoop h w K I nP nsf cb ν n (i + 1) st'

/-- Lines 110-117: the first point is chosen as the row-major first minimum
of the energy restricted to the centred window of half-width
`min(20, h//10, w//10)`; `none` when the window is empty. -/
def seedPoint (h w : Nat) (e : Nat → Nat → WithTop ℚ) : Option (Nat × Nat) :=
  let cy := h / 2
  let cx := w / 2
  let r := min 20 (min (h / 10) (w / 10))
  let ys0 := max 0 (cy - r)
  let ys1 := min h (cy + r)
  let xs0 := max 0 (cx - r)
  let xs1 := min w (cx + r)
  let rh := ys1 - ys0
  let rw := xs1 - xs0
  match firstMinIdx ((List.range (rh * rw)).map
      (fun k => e (ys0 + k / rw) (xs0 + k % rw))) with
  | none => none
  | some flat => some (flat / rw + (cy - r), flat % rw + (cx - r))

/-- The placer after the importance grid has been obtained (lines 91-145):
build the initial energy field `-importance * content_bias`, the all-white
stipple buffer and the empty sample list, place the seed point, then run
the loop for the remaining `num_points - 1` iterations starting at `i = 1`.
`num_points = int(I.size * percentage)` truncates toward zero. -/
def vacCore (h w : Nat) (K I importance : Nat → Nat → ℚ)
    (percentage nsf cb : ℚ) (ν : Nat → Nat → Nat → ℚ) : Option VCState :=
  let energy0 : Nat → Nat → WithTop ℚ :=
    fun i j => (((-(importance i j)) * cb : ℚ) : WithTop ℚ)
  let st0 : VCState := ⟨energy0, fun _ _ => 1, []⟩
  let nP : ℤ := truncQ (((h * w : Nat) : ℚ) * percentage)
  match seedPoint h w energy0 with
  | none => none
  | some (y0, x0) =>
    vcLoop h w K I nP nsf cb ν (nP - 1).toNat 1 (placePoint h w K I y0 x0 st0)

/-- Full `void_and_cluster`: clip the input, obtain the importance grid
(computing it with the default parameters when none is supplied, clipping
the supplied one otherwise), build the repulsion kernel, and run the
placer. `none` models the call raising. -/
def void_and_cluster (h w : Nat) (aexp : ℚ → ℚ) (input_img : Nat → Nat → ℚ)
    (percentage sigma cb : ℚ) (importance_img : Option (Nat → Nat → ℚ))
    (nsf : ℚ) (ν : Nat → Nat → Nat → ℚ) : Option VCState :=
  let I := fun i j => clip01 (input_img i j)
  match (match importance_img with
         | none => compute_importance h w aexp I (1 / 2) (2 / 5) (4 / 5)
             (1 / 10) (2 / 5) (1 / 5)
         | some g => some (fun i j => clip01 (g i j))) with
  | none => none
  | some importance =>
    vacCore h w (toroidal_gaussian_kernel h w aexp sigma) I importance
      percentage nsf cb ν

/-- The `(row, col)` coordinates of the samples, in emission order. -/
def coordsOf (st : VCState) : List (Nat × Nat) :=
  st.samples.map (fun s => (s.1, s.2.1))

/-- Number of cells of the `h × w` grid holding exactly `0.0`. -/
def countZeros (h w : Nat) (g : Nat → Nat → ℚ) : Nat :=
  (List.range (h * w)).countP (fun k => decide (g (k / w) (k % w) = 0))

/-- C8. The per-iteration noise enters only the copy searched for the
minimum: whenever a loop iteration succeeds, the persistent energy field
it leaves behind is exactly the previous field plus the kernel rolled to
the chosen cell, with the chosen cell set to `+inf` — the noise influences
the result only through the chosen index, never through the stored field. -/
theorem c8_frame_correct (h w : Nat) (K I : Nat → Nat → ℚ)
    (nz : Nat → Nat → ℚ) (st : VCState) :
    (vcStep h w K I nz st).map VCState.energy =
      (firstMinIdx (gridListW h w
          (fun i j => st.energy i j + ((nz i j : ℚ) : WithTop ℚ)))).map
        (fun k => fun i j =>
          if i = k / w ∧ j = k % w then (⊤ : WithTop ℚ)
          else st.energy i j +
            ((K (rollIdx h i (k / w)) (rollIdx w j (k % w)) : ℚ) : WithTop ℚ)) := by
  unfold vcStep
  cases firstMinIdx (gridListW h w
      (fun i j => st.energy i j + ((nz i j : ℚ) : WithTop ℚ))) with
  | none => rfl
  | some k => rfl

theorem seedPoint_none {h w : Nat} (e : Nat → Nat → WithTop ℚ)
    (hyp : h < 10 ∨ w < 10) : seedPoint h w e = none := by
  have hr : min 20 (min (h / 10) (w / 10)) = 0 := by
    rcases hyp with hh | hw
    · have h0 : h / 10 = 0 := Nat.div_eq_of_lt hh
      simp [h0]
    · have h0 : w / 10 = 0 := Nat.div_eq_of_lt hw
      simp [h0]
  simp only [seedPoint, hr, Nat.add_zero, Nat.sub_zero, Nat.zero_max,
    Nat.min_eq_right (Nat.div_le_self h 2), Nat.sub_self, Nat.zero_mul,
    List.range_zero, List.map_nil]
  rfl

/-- C10. If either dimension is strictly below 10, the seed-window
half-width `min(20, h//10, w//10)` is 0, the seed slice is empty, and
`void_and_cluster` fails at the `argmin` of the empty region — it never
returns a result, whatever the percentage and other parameters. -/
theorem c10_smallgrid_correct (h w : Nat) (aexp : ℚ → ℚ)
    (input_img : Nat → Nat → ℚ) (percentage sigma cb nsf : ℚ)
    (importance_img : Option (Nat → Nat → ℚ)) (ν : Nat → Nat → Nat → ℚ)
    (hyp : h < 10 ∨ w < 10) :
    void_and_cluster h w aexp input_img percentage sigma cb importance_img
      nsf ν = none := by
  unfold void_and_cluster
  cases importance_img with
  | none =>
    obtain ⟨g, hg⟩ := compute_importance_isSome h w aexp
      (fun i j => clip01 (input_img i j)) (1 / 2) (2 / 5) (4 / 5) (1 / 10)
      (2 / 5) (1 / 5)
    simp only [hg]
    simp only [vacCore]
    rw [seedPoint_none _ hyp]
  | some g =>
    simp only [vacCore]
    rw [seedPoint_none _ hyp]

/-- Witness for C10 on a concrete 5×5 input. -/
theorem c10_smallgrid_witness :
    void_and_cluster 5 5 (fun _x => 1) (fun _ _ => 0) (1 / 10) 1 (9 / 10)
      (some (fun _ _ => 1)) (1 / 10) (fun _ _ _ => 0) = none :=
  c10_smallgrid_correct 5 5 (fun _x => 1) (fun _ _ => 0) (1 / 10) 1 (9 / 10)
    (1 / 10) (some (fun _ _ => 1)) (fun _ _ _ => 0) (Or.inl (by decide))

/-! ### The placer invariant -/

/-- Invariant of the placer state: sample coordinates are in range and
pairwise distinct, a cell's energy is `⊤` exactly when the cell has been
selected, and the stipple buffer is `0` exactly on selected cells. -/
structure VCInv (h w : Nat) (st : VCState) : Prop where
  bounds : ∀ p ∈ coordsOf st, p.1 < h ∧ p.2 < w
  nodup : (coordsOf st).Nodup
  topIff : ∀ i j, i < h → j < w → (st.energy i j = ⊤ ↔ (i, j) ∈ coordsOf st)
  stip : ∀ i j, i < h → j < w →
    st.stipple i j = if (i, j) ∈ coordsOf st then 0 else 1

theorem coordsOf_length (st : VCState) :
    (coordsOf st).length = st.samples.length := List.length_map _ _

theorem coordsOf_placePoint (h w : Nat) (K I : Nat → Nat → ℚ) (y x : Nat)
    (st : VCState) :
    coordsOf (placePoint h w K I y x st) = coordsOf st ++ [(y, x)] := by
  unfold coordsOf placePoint
  simp

theorem placePoint_inv {h w : Nat} {K I : Nat → Nat → ℚ} {y x : Nat}
    {st : VCState} (hy : y < h) (hx : x < w)
    (hnot : (y, x) ∉ coordsOf st) (hinv : VCInv h w st) :
    VCInv h w (placePoint h w K I y x st) := by
  refine ⟨?_, ?_, ?_, ?_⟩
  · intro p hp
    rw [coordsOf_placePoint, List.mem_append, List.mem_singleton] at hp
    rcases hp with hp | hp
    · exact hinv.bounds p hp
    · subst hp
      exact ⟨hy, hx⟩
  · rw [coordsOf_placePoint]
    refine List.Nodup.append hinv.nodup (List.nodup_singleton _) ?_
    intro p hp hps
    rw [List.mem_singleton] at hps
    subst hps
    exact hnot hp
  · intro i j hi hj
    show (if i = y ∧ j = x then ⊤
          else st.energy i j +
            ((K (rollIdx h i y) (rollIdx w j x) : ℚ) : WithTop ℚ)) = ⊤ ↔ _
    rw [coordsOf_placePoint, List.mem_append, List.mem_singleton]
    by_cases hij : i = y ∧ j = x
    · rw [if_pos hij]
      simp [Prod.ext_iff, hij.1, hij.2]
    · rw [if_neg hij, WithTop.add_eq_top]
      have hne : ((K (rollIdx h i y) (rollIdx w j x) : ℚ) : WithTop ℚ) ≠ ⊤ :=
        WithTop.coe_ne_top

      constructor
      · intro hc
        rcases hc with hc | hc
        · exact Or.inl ((hinv.topIff i j hi hj).mp hc)
        · exact absurd hc hne
      · intro hc
        rcases hc with hc | hc
        · exact Or.inl ((hinv.topIff i j hi hj).mpr hc)
        · exact absurd (Prod.ext_iff.mp hc) hij
  · intro i j hi hj
    show (if i = y ∧ j = x then 0 else st.stipple i j) = _
    simp only [coordsOf_placePoint, List.mem_append, List.mem_singleton,
      Prod.mk.injEq]
    by_cases hij : i = y ∧ j = x
    · rw [if_pos hij, if_pos (Or.inr hij)]
    · rw [if_neg hij, hinv.stip i j hi hj]
      by_cases hm : (i, j) ∈ coordsOf st
      · rw [if_pos hm, if_pos (Or.inl hm)]
      · have hnotor : ¬ ((i, j) ∈ coordsOf st ∨ (i = y ∧ j = x)) := by
          intro hc
          rcases hc with hc | hc
          · exact hm hc
          · exact hij hc
        rw [if_neg hm, if_neg hnotor]

theorem placePoint_length (h w : Nat) (K I : Nat → Nat → ℚ) (y x : Nat)
    (st : VCState) :
    (placePoint h w K I y x st).samples.length = st.samples.length + 1 := by
  simp [placePoint]

theorem exists_fresh {h w : Nat} {st : VCState} (hinv : VCInv h w st)
    (hlen : (coordsOf st).length < h * w) :
    ∃ a b, a < h ∧ b < w ∧ (a, b) ∉ coordsOf st := by
  by_contra hcon
  push_neg at hcon
  have hsub : (Finset.range h ×ˢ Finset.range w) ⊆ (coordsOf st).toFinset := by
    intro p hp
    rw [Finset.mem_product, Finset.mem_range, Finset.mem_range] at hp
    rw [List.mem_toFinset]
    obtain ⟨a, b⟩ := p
    exact hcon a b hp.1 hp.2
  have hcard := Finset.card_le_card hsub
  rw [Finset.card_product, Finset.card_range, Finset.card_range] at hcard
  have htf := List.toFinset_card_le (coordsOf st)
  omega

theorem gridListW_length (h w : Nat) (f : Nat → Nat → WithTop ℚ) :
    (gridListW h w f).length = h * w := by
  simp [gridListW]

theorem gridListW_get (h w : Nat) (f : Nat → Nat → WithTop ℚ) (k : Nat)
    (hk : k < (gridListW h w f).length) :
    (gridListW h w f).get ⟨k, hk⟩ = f (k / w) (k % w) := by
  simp [gridListW]

/-- A successful step preserves the invariant and emits exactly one
sample: the chosen cell is fresh because the minimum of the noisy field is
below the (finite) value at some unselected cell, while every selected
cell sits at `⊤`. -/
theorem vcStep_inv {h w : Nat} {K I : Nat → Nat → ℚ} {nz : Nat → Nat → ℚ}
    {st st' : VCState} (heq : vcStep h w K I nz st = some st')
    (hinv : VCInv h w st) (hlen : (coordsOf st).length < h * w) :
    VCInv h w st' ∧ st'.samples.length = st.samples.length + 1 := by
  have hw0 : 0 < w := by
    rcases Nat.eq_zero_or_pos w with h0 | h0
    · rw [h0, Nat.mul_zero] at hlen
      omega
    · exact h0
  unfold vcStep at heq
  cases hk : firstMinIdx (gridListW h w
      (fun i j => st.energy i j + ((nz i j : ℚ) : WithTop ℚ))) with
  | none =>
    rw [hk] at heq
    simp at heq
  | some k =>
    rw [hk] at heq
    simp only [Option.some.injEq] at heq
    subst heq
    have hk1 : k < (gridListW h w
        (fun i j => st.energy i j + ((nz i j : ℚ) : WithTop ℚ))).length :=
      firstMinIdx_lt hk
    have hkl : k < h * w := by rwa [gridListW_length] at hk1
    obtain ⟨a, b, ha, hb, hnot⟩ := exists_fresh hinv hlen
    have henc' : a * w + b < (gridListW h w
        (fun i j => st.energy i j + ((nz i j : ℚ) : WithTop ℚ))).length := by
      rw [gridListW_length]
      exact enc_lt ha hb
    have hvge := firstMinIdx_min hk hk1 (a * w + b) henc'
    rw [gridListW_get, gridListW_get] at hvge
    simp only [enc_div hb, enc_mod hb] at hvge
    have hab_ne : st.energy a b ≠ ⊤ := by
      intro htop
      exact hnot ((hinv.topIff a b ha hb).mp htop)
    have hab_fin : st.energy a b + ((nz a b : ℚ) : WithTop ℚ) ≠ ⊤ :=
      WithTop.add_ne_top.mpr ⟨hab_ne, WithTop.coe_ne_top⟩
    have hchosen_fin : st.energy (k / w) (k % w) ≠ ⊤ := by
      intro htop
      rw [htop, top_add] at hvge
      exact hab_fin (top_le_iff.mp hvge)
    have hky : k / w < h := div_lt_of_lt_mul hkl
    have hkx : k % w < w := Nat.mod_lt _ hw0
    have hnotk : (k / w, k % w) ∉ coordsOf st := by
      intro hmem
      exact hchosen_fin ((hinv.topIff _ _ hky hkx).mpr hmem)
    exact ⟨placePoint_inv hky hkx hnotk hinv, placePoint_length _ _ _ _ _ _ _⟩

theorem vcStep_isSome {h w : Nat} (K I nz : Nat → Nat → ℚ) (st : VCState)
    (hpos : 0 < h * w) :
    ∃ st', vcStep h w K I nz st = some st' := by
  have hne : gridListW h w
      (fun i j => st.energy i j + ((nz i j : ℚ) : WithTop ℚ)) ≠ [] := by
    simp only [gridListW, ne_eq, List.map_eq_nil_iff, List.range_eq_nil]
    omega
  obtain ⟨k, hk⟩ := firstMinIdx_isSome hne
  refine ⟨placePoint h w K I (k / w) (k % w) st, ?_⟩
  unfold vcStep
  rw [hk]

theorem vcLoop_inv {h w : Nat} {K I : Nat → Nat → ℚ} {nP : ℤ} {nsf cb : ℚ}
    {ν : Nat → Nat → Nat → ℚ} :
    ∀ {n i : Nat} {st st' : VCState},
      vcLoop h w K I nP nsf cb ν n i st = some st' →
      VCInv h w st → st.samples.length + n ≤ h * w →
      VCInv h w st' ∧ st'.samples.length = st.samples.length + n := by
  intro n
  induction n with
  | zero =>
    intro i st st' heq hinv _
    simp only [vcLoop, Option.some.injEq] at heq
    subst heq
    exact ⟨hinv, by omega⟩
  | succ n ih =>
    intro i st st' heq hinv hlen
    simp only [vcLoop] at heq
    split at heq
    · exact absurd heq (by simp)
    · split at heq
      · exact absurd heq (by simp)
      · rename_i st1 hstep
        have hlen1 : (coordsOf st).length < h * w := by
          rw [coordsOf_length]
          omega
        obtain ⟨hinv1, hl1⟩ := vcStep_inv hstep hinv hlen1
        obtain ⟨hinv2, hl2⟩ := ih heq hinv1 (by omega)
        exact ⟨hinv2, by omega⟩

theorem vcLoop_isSome {h w : Nat} {K I : Nat → Nat → ℚ} {nP : ℤ}
    {nsf cb : ℚ} {ν : Nat → Nat → Nat → ℚ} :
    ∀ {n i : Nat} (st : VCState), 0 < h * w →
      (n = 0 ∨ (0 ≤ nsf ∧ 0 ≤ cb ∧ 1 ≤ i ∧ (i : ℤ) + n ≤ nP)) →
      ∃ st', vcLoop h w K I nP nsf cb ν n i st = some st' := by
  intro n
  induction n with
  | zero =>
    intro i st _ _
    exact ⟨st, rfl⟩
  | succ n ih =>
    intro i st hpos hside
    rcases hside with h0 | ⟨hnsf, hcb, hi, hin⟩
    · omega
    have hstd : ¬ (nsf * cb * (1 - ((i : ℚ) / (nP : ℚ)) * (1 / 2)) < 0) := by
      push_neg
      apply mul_nonneg (mul_nonneg hnsf hcb)
      have hnP0 : (0 : ℤ) < nP := by omega
      have hiP : (i : ℚ) / (nP : ℚ) ≤ 1 := by
        rw [div_le_one (by exact_mod_cast hnP0)]
        exact_mod_cast (by omega : (i : ℤ) ≤ nP)
      linarith
    obtain ⟨st1, hstep⟩ := vcStep_isSome K I
      (fun r c => nsf * cb * (1 - ((i : ℚ) / (nP : ℚ)) * (1 / 2)) * ν i r c)
      st hpos
    obtain ⟨st', hst'⟩ := ih (i := i + 1) st1 hpos (by
      rcases Nat.eq_zero_or_pos n with hn0 | hn1
      · exact Or.inl hn0
      · refine Or.inr ⟨hnsf, hcb, by omega, ?_⟩
        push_cast
        push_cast at hin
        omega)
    refine ⟨st', ?_⟩
    simp only [vcLoop]
    rw [if_neg hstd]
    simp only [hstep]
    exact hst'

/-! ### Counting the zero cells of the stipple buffer -/

theorem countP_or_disjoint :
    ∀ (l : List Nat) (p q : Nat → Bool),
      (∀ a ∈ l, ¬(p a = true ∧ q a = true)) →
      l.countP (fun a => p a || q a) = l.countP p + l.countP q := by
  intro l
  induction l with
  | nil => intro p q _; simp
  | cons a as ih =>
    intro p q hdisj
    have hd := hdisj a (List.mem_cons_self _ _)
    have ih2 := ih p q (fun b hb => hdisj b (List.mem_cons_of_mem _ hb))
    simp only [List.countP_cons, ih2]
    cases hp : p a with
    | true =>
      have hq : q a = false := by
        cases hqv : q a
        · rfl
        · exact absurd ⟨hp, hqv⟩ hd
      simp [hp, hq]
      omega
    | false =>
      cases hq : q a <;> simp [hp, hq] <;> omega

theorem countP_range_single (n m : Nat) :
    (List.range n).countP (fun k => decide (k = m)) = if m < n then 1 else 0 := by
  induction n with
  | zero => simp
  | succ n ih =>
    rw [List.range_succ, List.countP_append, ih]
    simp only [List.countP_cons, List.countP_nil]
    by_cases he : n = m
    · subst he
      simp [Nat.lt_irrefl, Nat.lt_succ_self]
    · by_cases hlt : m < n
      · have hlt2 : m < n + 1 := by omega
        simp [he, hlt, hlt2]
      · have hlt2 : ¬ m < n + 1 := by omega
        simp [he, hlt, hlt2]

theorem countP_mem_grid {h w : Nat} (hw0 : 0 < w) :
    ∀ (L : List (Nat × Nat)), L.Nodup → (∀ p ∈ L, p.1 < h ∧ p.2 < w) →
      (List.range (h * w)).countP
        (fun k => decide ((k / w, k % w) ∈ L)) = L.length := by
  intro L
  induction L with
  | nil =>
    intro _ _
    simp
  | cons p L' ih =>
    intro hnd hb
    obtain ⟨hpnot, hnd'⟩ := List.nodup_cons.mp hnd
    have hp := hb p (List.mem_cons_self _ _)
    have hb' : ∀ q ∈ L', q.1 < h ∧ q.2 < w :=
      fun q hq => hb q (List.mem_cons_of_mem _ hq)
    have hsplit : ∀ k ∈ List.range (h * w),
        (decide ((k / w, k % w) ∈ p :: L') = true) ↔
        (((fun k => decide (k = p.1 * w + p.2)) k ||
          (fun k => decide ((k / w, k % w) ∈ L')) k) = true) := by
      intro k hk
      have hiff : (k / w, k % w) = p ↔ k = p.1 * w + p.2 := by
        constructor
        · intro he
          have h1 : k / w = p.1 := by rw [← he]
          have h2 : k % w = p.2 := by rw [← he]
          rw [← h1, ← h2, Nat.mul_comm]
          exact (Nat.div_add_mod k w).symm
        · intro he
          subst he
          rw [enc_div hp.2, enc_mod hp.2]
      simp only [List.mem_cons, Bool.or_eq_true, decide_eq_true_eq]
      rw [hiff]
    rw [List.countP_congr hsplit,
      countP_or_disjoint _ _ _ ?_, countP_range_single, ih hnd' hb',
      if_pos (enc_lt hp.1 hp.2), List.length_cons]
    · omega
    · intro k hk hkand
      obtain ⟨h1, h2⟩ := hkand
      rw [decide_eq_true_eq] at h1 h2
      subst h1
      rw [enc_div hp.2, enc_mod hp.2] at h2
      exact hpnot h2

theorem countZeros_of_inv {h w : Nat} {st : VCState} (hw0 : 0 < w)
    (hinv : VCInv h w st) :
    countZeros h w st.stipple = st.samples.length := by
  rw [← coordsOf_length]
  unfold countZeros
  have hcg : ∀ k ∈ List.range (h * w),
      (decide (st.stipple (k / w) (k % w) = 0) = true) ↔
      ((fun k => decide ((k / w, k % w) ∈ coordsOf st)) k = true) := by
    intro k hk
    have hkl := List.mem_range.mp hk
    simp only [decide_eq_true_eq]
    rw [hinv.stip _ _ (div_lt_of_lt_mul hkl) (Nat.mod_lt _ hw0)]
    by_cases hm : (k / w, k % w) ∈ coordsOf st
    · simp [hm]
    · simp [hm]
  rw [List.countP_congr hcg]
  exact countP_mem_grid hw0 (coordsOf st) hinv.nodup hinv.bounds

/-! ### Seed selection -/

theorem seedPoint_isSome {h w : Nat} (e : Nat → Nat → WithTop ℚ)
    (h10 : 10 ≤ h) (w10 : 10 ≤ w) :
    ∃ y x, seedPoint h w e = some (y, x) := by
  simp only [seedPoint]
  set r := min 20 (min (h / 10) (w / 10)) with hr
  have hr1 : 1 ≤ r := by
    have h1 : 1 ≤ h / 10 := (Nat.one_le_div_iff (by omega)).mpr h10
    have h2 : 1 ≤ w / 10 := (Nat.one_le_div_iff (by omega)).mpr w10
    rw [hr]
    omega
  have hrcy : r ≤ h / 2 := by
    have h1 : h / 10 ≤ h / 2 := Nat.div_le_div_left (by omega) (by omega)
    rw [hr]
    omega
  have hrcx : r ≤ w / 2 := by
    have h1 : w / 10 ≤ w / 2 := Nat.div_le_div_left (by omega) (by omega)
    rw [hr]
    omega
  have hch : h / 2 < h := Nat.div_lt_self (by omega) (by omega)
  have hcw : w / 2 < w := Nat.div_lt_self (by omega) (by omega)
  have hmh : h / 2 - r < min h (h / 2 + r) := lt_min (by omega) (by omega)
  have hmw : w / 2 - r < min w (w / 2 + r) := lt_min (by omega) (by omega)
  have hne : ((List.range ((min h (h / 2 + r) - max 0 (h / 2 - r)) *
      (min w (w / 2 + r) - max 0 (w / 2 - r)))).map
      (fun k => e (max 0 (h / 2 - r) + k / (min w (w / 2 + r) - max 0 (w / 2 - r)))
        (max 0 (w / 2 - r) + k % (min w (w / 2 + r) - max 0 (w / 2 - r))))) ≠ [] := by
    simp only [ne_eq, List.map_eq_nil_iff, List.range_eq_nil]
    rw [Nat.zero_max, Nat.zero_max]
    have h1 : 1 ≤ min h (h / 2 + r) - (h / 2 - r) := by omega
    have h2 : 1 ≤ min w (w / 2 + r) - (w / 2 - r) := by omega
    positivity
  obtain ⟨flat, hflat⟩ := firstMinIdx_isSome hne
  rw [hflat]
  exact ⟨_, _, rfl⟩

theorem seedPoint_bounds {h w : Nat} {e : Nat → Nat → WithTop ℚ} {y x : Nat}
    (heq : seedPoint h w e = some (y, x)) : y < h ∧ x < w ∧ 0 < h * w := by
  simp only [seedPoint] at heq
  set r := min 20 (min (h / 10) (w / 10)) with hr
  split at heq
  · exact absurd heq (by simp)
  · rename_i flat hflat
    simp only [Option.some.injEq, Prod.mk.injEq] at heq
    obtain ⟨hy, hx⟩ := heq
    simp only [Nat.zero_max] at hy hx
    have hlen := firstMinIdx_lt hflat
    rw [List.length_map, List.length_range] at hlen
    simp only [Nat.zero_max] at hlen
    have hrh : 0 < min h (h / 2 + r) - (h / 2 - r) := by
      rcases Nat.eq_zero_or_pos (min h (h / 2 + r) - (h / 2 - r)) with h0 | h1
      · rw [h0, Nat.zero_mul] at hlen
        omega
      · exact h1
    have hrw : 0 < min w (w / 2 + r) - (w / 2 - r) := by
      rcases Nat.eq_zero_or_pos (min w (w / 2 + r) - (w / 2 - r)) with h0 | h1
      · rw [h0, Nat.mul_zero] at hlen
        omega
      · exact h1
    have hdiv : flat / (min w (w / 2 + r) - (w / 2 - r)) <
        min h (h / 2 + r) - (h / 2 - r) := div_lt_of_lt_mul hlen
    have hmod : flat % (min w (w / 2 + r) - (w / 2 - r)) <
        min w (w / 2 + r) - (w / 2 - r) := Nat.mod_lt _ hrw
    have hminh : min h (h / 2 + r) ≤ h := min_le_left _ _
    have hminw : min w (w / 2 + r) ≤ w := min_le_left _ _
    have hyy : y < h := by
      rw [← hy]
      omega
    have hxx : x < w := by
      rw [← hx]
      omega
    exact ⟨hyy, hxx, Nat.mul_pos (by omega) (by omega)⟩

/-! ### Full runs of the placer -/

theorem st0_inv (h w : Nat) (importance : Nat → Nat → ℚ) (cb : ℚ) :
    VCInv h w ⟨fun i j => (((-(importance i j)) * cb : ℚ) : WithTop ℚ),
      fun _ _ => 1, []⟩ := by
  refine ⟨?_, ?_, ?_, ?_⟩
  · intro p hp
    simp [coordsOf] at hp
  · simp [coordsOf]
  · intro i j _ _
    constructor
    · intro hc
      exact absurd hc WithTop.coe_ne_top
    · intro hc
      simp [coordsOf] at hc
  · intro i j _ _
    simp [coordsOf]

/-- A run of the placer core on a grid with both dimensions at least 10 and
a requested point count of at most `h*w` succeeds, maintains the invariant,
and places exactly `1 + max 0 (num_points - 1)` points: the seed is placed
unconditionally, then the loop runs `num_points - 1` more times. -/
theorem vacCore_spec (h w : Nat) (K I importance : Nat → Nat → ℚ)
    (percentage nsf cb : ℚ) (ν : Nat → Nat → Nat → ℚ)
    (h10 : 10 ≤ h) (w10 : 10 ≤ w)
    (hnp : truncQ (((h * w : Nat) : ℚ) * percentage) ≤ (h * w : ℤ))
    (hside : (0 ≤ nsf ∧ 0 ≤ cb) ∨
      truncQ (((h * w : Nat) : ℚ) * percentage) ≤ 1) :
    ∃ st, vacCore h w K I importance percentage nsf cb ν = some st ∧
      VCInv h w st ∧
      st.samples.length =
        1 + (truncQ (((h * w : Nat) : ℚ) * percentage) - 1).toNat := by
  obtain ⟨y0, x0, hseed⟩ := seedPoint_isSome
    (fun i j => (((-(importance i j)) * cb : ℚ) : WithTop ℚ)) h10 w10
  obtain ⟨hy0, hx0, hpos⟩ := seedPoint_bounds hseed
  have hinv1 := placePoint_inv (K := K) (I := I) hy0 hx0
    (by simp [coordsOf]) (st0_inv h w importance cb)
  obtain ⟨st', hloop⟩ := @vcLoop_isSome h w K I
    (truncQ (((h * w : Nat) : ℚ) * percentage)) nsf cb ν
    ((truncQ (((h * w : Nat) : ℚ) * percentage) - 1).toNat) 1
    (placePoint h w K I y0 x0
      ⟨fun i j => (((-(importance i j)) * cb : ℚ) : WithTop ℚ),
        fun _ _ => 1, []⟩) hpos
    (by
      rcases hside with ⟨h1, h2⟩ | hle
      · rcases Nat.eq_zero_or_pos
            (truncQ (((h * w : Nat) : ℚ) * percentage) - 1).toNat with h0 | hfp
        · exact Or.inl h0
        · exact Or.inr ⟨h1, h2, le_refl 1, by omega⟩
      · left
        omega)
  obtain ⟨hinv', hlen'⟩ := vcLoop_inv hloop hinv1
    (by
      rw [placePoint_length]
      simp only [List.length_nil]
      omega)
  refine ⟨st', ?_, hinv', ?_⟩
  · simp only [vacCore]
    simp only [hseed]
    exact hloop
  · rw [hlen', placePoint_length]
    simp only [List.length_nil]

/-- Same as `vacCore_spec`, lifted over the importance-grid acquisition of
`void_and_cluster`. -/
theorem void_and_cluster_spec (h w : Nat) (aexp : ℚ → ℚ)
    (input_img : Nat → Nat → ℚ) (percentage sigma cb : ℚ)
    (importance_img : Option (Nat → Nat → ℚ)) (nsf : ℚ)
    (ν : Nat → Nat → Nat → ℚ)
    (h10 : 10 ≤ h) (w10 : 10 ≤ w)
    (hnp : truncQ (((h * w : Nat) : ℚ) * percentage) ≤ (h * w : ℤ))
    (hside : (0 ≤ nsf ∧ 0 ≤ cb) ∨
      truncQ (((h * w : Nat) : ℚ) * percentage) ≤ 1) :
    ∃ st, void_and_cluster h w aexp input_img percentage sigma cb
        importance_img nsf ν = some st ∧ VCInv h w st ∧
      st.samples.length =
        1 + (truncQ (((h * w : Nat) : ℚ) * percentage) - 1).toNat := by
  simp only [void_and_cluster]
  cases importance_img with
  | none =>
    obtain ⟨g, hg⟩ := compute_importance_isSome h w aexp
      (fun i j => clip01 (input_img i j)) (1 / 2) (2 / 5) (4 / 5) (1 / 10)
      (2 / 5) (1 / 5)
    simp only [hg]
    exact vacCore_spec h w _ _ g percentage nsf cb ν h10 w10 hnp hside
  | some g0 =>
    exact vacCore_spec h w _ _ _ percentage nsf cb ν h10 w10 hnp hside

/-- Any successful run of the placer core with `0 < percentage ≤ 1/2` has
pairwise-distinct sample coordinates. -/
theorem vacCore_nodup {h w : Nat} {K I importance : Nat → Nat → ℚ}
    {percentage nsf cb : ℚ} {ν : Nat → Nat → Nat → ℚ} {st : VCState}
    (hp : 0 < percentage) (hp2 : percentage ≤ 1 / 2)
    (heq : vacCore h w K I importance percentage nsf cb ν = some st) :
    (coordsOf st).Nodup := by
  simp only [vacCore] at heq
  split at heq
  · exact absurd heq (by simp)
  · rename_i y0 x0 hseed
    obtain ⟨hy0, hx0, hpos⟩ := seedPoint_bounds hseed
    have hinv1 := placePoint_inv (K := K) (I := I) hy0 hx0
      (by simp [coordsOf]) (st0_inv h w importance cb)
    have hnp : truncQ (((h * w : Nat) : ℚ) * percentage) ≤ (h * w : ℤ) := by
      have hq0 : (0 : ℚ) ≤ ((h * w : Nat) : ℚ) * percentage :=
        mul_nonneg (by positivity) (le_of_lt hp)
      have hql : ((h * w : Nat) : ℚ) * percentage ≤ ((h * w : Nat) : ℚ) :=
        mul_le_of_le_one_right (by positivity) (by linarith)
      unfold truncQ
      rw [if_pos hq0]
      calc ⌊((h * w : Nat) : ℚ) * percentage⌋
          ≤ ⌊((h * w : Nat) : ℚ)⌋ := Int.floor_le_floor hql
        _ = ((h * w : Nat) : ℤ) := Int.floor_natCast _
    refine (vcLoop_inv heq hinv1 ?_).1.nodup
    rw [placePoint_length]
    simp only [List.length_nil]
    omega

/-- C7. With `0 < percentage ≤ 1/2`, any sample list returned by
`void_and_cluster` contains no duplicate `(row, col)` pair: selected cells
are set to `+inf`, finite noise keeps them at `+inf`, and with at most half
the cells requested some cell always stays finite, so the minimum search
never revisits a selected cell. -/
theorem c7_nodup_correct (h w : Nat) (aexp : ℚ → ℚ)
    (input_img : Nat → Nat → ℚ) (percentage sigma cb nsf : ℚ)
    (importance_img : Option (Nat → Nat → ℚ)) (ν : Nat → Nat → Nat → ℚ)
    (st : VCState)
    (hp : 0 < percentage) (hp2 : percentage ≤ 1 / 2)
    (heq : void_and_cluster h w aexp input_img percentage sigma cb
      importance_img nsf ν = some st) :
    (coordsOf st).Nodup := by
  simp only [void_and_cluster] at heq
  cases importance_img with
  | none =>
    obtain ⟨g, hg⟩ := compute_importance_isSome h w aexp
      (fun i j => clip01 (input_img i j)) (1 / 2) (2 / 5) (4 / 5) (1 / 10)
      (2 / 5) (1 / 5)
    rw [hg] at heq
    exact vacCore_nodup hp hp2 heq
  | some g0 =>
    exact vacCore_nodup hp hp2 heq

/-- Witness for C7: a successful concrete run whose sample coordinates are
pairwise distinct. -/
theorem c7_nodup_witness :
    ∃ st, void_and_cluster 10 10 (fun _x => 1) (fun _ _ => 1 / 2) (1 / 100)
        (9 / 10) (9 / 10) (some (fun _ _ => 1 / 2)) (1 / 10)
        (fun _ _ _ => 0) = some st ∧ (coordsOf st).Nodup := by
  obtain ⟨st, heq, _, _⟩ := void_and_cluster_spec 10 10 (fun _x => 1)
    (fun _ _ => 1 / 2) (1 / 100) (9 / 10) (9 / 10) (some (fun _ _ => 1 / 2))
    (1 / 10) (fun _ _ _ => 0) (by norm_num) (by norm_num)
    (by norm_num [truncQ]) (Or.inl ⟨by norm_num, by norm_num⟩)
  exact ⟨st, heq, c7_nodup_correct 10 10 (fun _x => 1) (fun _ _ => 1 / 2)
    (1 / 100) (9 / 10) (9 / 10) (1 / 10) (some (fun _ _ => 1 / 2))
    (fun _ _ _ => 0) st (by norm_num) (by norm_num) heq⟩

/-- C2 fails as stated: at `percentage = -1/2` (so `percentage ≤ 0`, where
the claim demands zero stipples and an empty sample list) a concrete run
still places the unconditional seed point: one zero cell, one sample. -/
theorem c2_counterexample :
    (∃ st, void_and_cluster 10 10 (fun _x => 1) (fun _ _ => 1 / 2)
        (-(1 / 2)) (9 / 10) (9 / 10) (some (fun _ _ => 1 / 2)) (1 / 10)
        (fun _ _ _ => 0) = some st ∧
      countZeros 10 10 st.stipple = 1 ∧ st.samples.length = 1) ∧
    ((-(1 / 2) : ℚ) ≤ 0 ∧ (1 : Nat) ≠ 0) := by
  have hnp0 : truncQ (((10 * 10 : Nat) : ℚ) * (-(1 / 2))) = -50 := by
    have hv : ((10 * 10 : Nat) : ℚ) * (-(1 / 2)) = ((-50 : ℤ) : ℚ) := by
      norm_num
    rw [truncQ, hv, if_neg (by norm_num)]
    exact Int.ceil_intCast _
  obtain ⟨st, heq, hinv, hlen⟩ := void_and_cluster_spec 10 10 (fun _x => 1)
    (fun _ _ => 1 / 2) (-(1 / 2)) (9 / 10) (9 / 10) (some (fun _ _ => 1 / 2))
    (1 / 10) (fun _ _ _ => 0) (by norm_num) (by norm_num)
    (by rw [hnp0]; norm_num) (Or.inr (by rw [hnp0]; norm_num))
  refine ⟨⟨st, heq, ?_, ?_⟩, by norm_num, by norm_num⟩
  · rw [countZeros_of_inv (by norm_num) hinv, hlen, hnp0]
    rfl
  · rw [hlen, hnp0]
    rfl

/-- C2 amended. On grids with both dimensions at least 10 and a requested
count `num_points = int(h*w*percentage) ≤ h*w`, the number of zero cells in
the stipple grid and the sample-list length are both
`max 1 num_points` — the claimed `floor(h*w*percentage)` (or 0 when
`percentage ≤ 0`) is off by the unconditionally placed seed point whenever
`num_points ≤ 0`. -/
theorem c2_amended_correct (h w : Nat) (aexp : ℚ → ℚ)
    (input_img : Nat → Nat → ℚ) (percentage sigma cb nsf : ℚ)
    (importance_img : Option (Nat → Nat → ℚ)) (ν : Nat → Nat → Nat → ℚ)
    (h10 : 10 ≤ h) (w10 : 10 ≤ w)
    (hnp : truncQ (((h * w : Nat) : ℚ) * percentage) ≤ (h * w : ℤ))
    (hnsf : 0 ≤ nsf) (hcb : 0 ≤ cb) :
    ∃ st, void_and_cluster h w aexp input_img percentage sigma cb
        importance_img nsf ν = some st ∧
      st.samples.length =
        max 1 (truncQ (((h * w : Nat) : ℚ) * percentage)).toNat ∧
      countZeros h w st.stipple = st.samples.length := by
  obtain ⟨st, heq, hinv, hlen⟩ := void_and_cluster_spec h w aexp input_img
    percentage sigma cb importance_img nsf ν h10 w10 hnp
    (Or.inl ⟨hnsf, hcb⟩)
  refine ⟨st, heq, ?_, ?_⟩
  · rw [hlen]
    omega
  · rw [countZeros_of_inv (by omega) hinv]

/-- Witness for the amended C2 at a concrete run placing a single point. -/
theorem c2_amended_witness :
    ∃ st, void_and_cluster 10 10 (fun _x => 1) (fun _ _ => 1 / 2) (1 / 100)
        (9 / 10) (9 / 10) (some (fun _ _ => 1 / 2)) (1 / 10)
        (fun _ _ _ => 0) = some st ∧
      st.samples.length =
        max 1 (truncQ (((10 * 10 : Nat) : ℚ) * (1 / 100))).toNat ∧
      countZeros 10 10 st.stipple = st.samples.length :=
  c2_amended_correct 10 10 (fun _x => 1) (fun _ _ => 1 / 2) (1 / 100)
    (9 / 10) (9 / 10) (1 / 10) (some (fun _ _ => 1 / 2)) (fun _ _ _ => 0)
    (by norm_num) (by norm_num) (by norm_num [truncQ]) (by norm_num)
    (by norm_num)

/-- C1 fails as stated: at `percentage = 0` (so `floor(h*w*percentage) = 0`)
a concrete run returns a one-element sample list and a stipple grid with one
zero cell — the seed point is placed before the loop, unconditionally. -/
theorem c1_counterexample :
    (∃ st, void_and_cluster 10 10 (fun _x => 1) (fun _ _ => 1 / 2) 0
        (9 / 10) (9 / 10) (some (fun _ _ => 1 / 2)) (1 / 10)
        (fun _ _ _ => 0) = some st ∧
      st.samples.length = 1 ∧ countZeros 10 10 st.stipple = 1) ∧
    truncQ (((10 * 10 : Nat) : ℚ) * 0) = 0 := by
  have hnp0 : truncQ (((10 * 10 : Nat) : ℚ) * 0) = 0 := by
    norm_num [truncQ]
  obtain ⟨st, heq, hinv, hlen⟩ := void_and_cluster_spec 10 10 (fun _x => 1)
    (fun _ _ => 1 / 2) 0 (9 / 10) (9 / 10) (some (fun _ _ => 1 / 2))
    (1 / 10) (fun _ _ _ => 0) (by norm_num) (by norm_num)
    (by rw [hnp0]; norm_num) (Or.inr (by rw [hnp0]; norm_num))
  refine ⟨⟨st, heq, ?_, ?_⟩, hnp0⟩
  · rw [hlen, hnp0]
    rfl
  · rw [countZeros_of_inv (by norm_num) hinv, hlen, hnp0]
    rfl

/-- C1 amended. When `int(h*w*percentage) ≤ 0` (in particular at
`percentage = 0`) on a grid with both dimensions at least 10,
`void_and_cluster` does not return the untouched background: it still
places the unconditional seed point, returning a one-element sample list
and a stipple grid with exactly one `0.0` cell. -/
theorem c1_amended_correct (h w : Nat) (aexp : ℚ → ℚ)
    (input_img : Nat → Nat → ℚ) (percentage sigma cb nsf : ℚ)
    (importance_img : Option (Nat → Nat → ℚ)) (ν : Nat → Nat → Nat → ℚ)
    (h10 : 10 ≤ h) (w10 : 10 ≤ w)
    (hnp0 : truncQ (((h * w : Nat) : ℚ) * percentage) ≤ 0) :
    ∃ st, void_and_cluster h w aexp input_img percentage sigma cb
        importance_img nsf ν = some st ∧
      st.samples.length = 1 ∧ countZeros h w st.stipple = 1 := by
  obtain ⟨st, heq, hinv, hlen⟩ := void_and_cluster_spec h w aexp input_img
    percentage sigma cb importance_img nsf ν h10 w10
    (le_trans hnp0 (by positivity)) (Or.inr (by omega))
  refine ⟨st, heq, ?_, ?_⟩
  · rw [hlen]
    omega
  · rw [countZeros_of_inv (by omega) hinv, hlen]
    omega

/-- Witness for the amended C1 at a concrete zero-percentage run. -/
theorem c1_amended_witness :
    ∃ st, void_and_cluster 12 11 (fun _x => 1) (fun _ _ => 3 / 4) 0
        (9 / 10) (9 / 10) (some (fun _ _ => 1 / 4)) (1 / 10)
        (fun _ _ _ => 0) = some st ∧
      st.samples.length = 1 ∧ countZeros 12 11 st.stipple = 1 :=
  c1_amended_correct 12 11 (fun _x => 1) (fun _ _ => 3 / 4) 0 (9 / 10)
    (9 / 10) (1 / 10) (some (fun _ _ => 1 / 4)) (fun _ _ _ => 0)
    (by norm_num) (by norm_num) (by norm_num [truncQ])

end SBC
